import Mathlib

/-!
Shallow embedding of the shorelark core libraries:
  - src/libs/neural-network/src/lib.rs  (feedforward network: propagate, random)
  - src/libs/genetic-algorithm/src/lib.rs  (GeneticAlgorithm::evolve stub)

Modelling conventions:
  - Rust `f32` values are modelled as rationals (`ℚ`); the claims under study
    concern shape, ordering, sign and algebraic structure, not bit-level
    floating-point rounding.
  - A Rust panic (`assert!`, `assert_eq!`, `todo!`) is modelled as a failing
    result: `Option.none`, or an explicit `Except.error` where the failure
    mode matters.
  - The random source `&mut dyn RngCore` together with rand's
    `gen_range(lo..=hi)` for floats is modelled as a stream of unit-interval
    draws `stream : ℕ → ℚ` plus a cursor; `gen_range(lo..=hi)` returns
    `lo + (hi - lo) * u` for the next draw `u`, consuming one draw.
  - Rust iterator pipelines (`map`/`collect`, `fold`, `windows(2)`) are
    modelled by structural recursion over lists in the same evaluation order.
-/

/-- A neuron: a bias scalar and one weight per input
(src/libs/neural-network/src/lib.rs, `struct Neuron`). -/
structure Neuron where
  bias : ℚ
  weights : List ℚ

/-- A layer: an ordered list of neurons
(src/libs/neural-network/src/lib.rs, `struct Layer`). -/
structure Layer where
  neurons : List Neuron

/-- A network: an ordered list of layers
(src/libs/neural-network/src/lib.rs, `struct Network`). -/
structure Network where
  layers : List Layer

/-- A topology entry: the neuron count of one layer
(src/libs/neural-network/src/lib.rs, `struct LayerTopology`). -/
structure LayerTopology where
  neurons : ℕ

/-- Embeds `Neuron::propagate`: asserts that the input length equals the
weight count (panic modelled as `none`), then returns
`(bias + Σ input_i * weight_i).max(0.0)`. -/
def Neuron.propagate (n : Neuron) (inputs : List ℚ) : Option ℚ :=
  if inputs.length = n.weights.length then
    some (max (n.bias + ((inputs.zip n.weights).map (fun p => p.1 * p.2)).sum) 0)
  else
    none

/-- Embeds the iterator pipeline of `Layer::propagate`: each neuron is
propagated on the shared input vector, in order; any neuron panic aborts the
whole call. -/
def propagateNeurons (inputs : List ℚ) : List Neuron → Option (List ℚ)
  | [] => some []
  | n :: rest =>
    (n.propagate inputs).bind fun y =>
      (propagateNeurons inputs rest).map fun ys => y :: ys

/-- Embeds `Layer::propagate`: maps `Neuron::propagate` over the layer's
neurons and collects the outputs. -/
def Layer.propagate (l : Layer) (inputs : List ℚ) : Option (List ℚ) :=
  propagateNeurons inputs l.neurons

/-- Embeds the `fold` inside `Network::propagate`: the inputs are threaded
through the layers sequentially. -/
def propagateLayers : List Layer → List ℚ → Option (List ℚ)
  | [], inputs => some inputs
  | l :: rest, inputs =>
    (l.propagate inputs).bind fun out => propagateLayers rest out

/-- Embeds `Network::propagate`. -/
def Network.propagate (net : Network) (inputs : List ℚ) : Option (List ℚ) :=
  propagateLayers net.layers inputs

/-- Model of `&mut dyn RngCore`: an infinite stream of unit-interval draws
and a cursor into it. -/
structure Rng where
  stream : ℕ → ℚ
  pos : ℕ

/-- Model of rand's `gen_range(lo..=hi)` on floats: consumes one draw `u`
(intended to lie in `[0, 1]`) and returns `lo + (hi - lo) * u`. -/
def Rng.genRange (rng : Rng) (lo hi : ℚ) : ℚ × Rng :=
  (lo + (hi - lo) * rng.stream rng.pos, ⟨rng.stream, rng.pos + 1⟩)

/-- A stream all of whose draws lie in the unit interval: the contract of the
entropy source feeding `gen_range`. -/
def Rng.unitStream (rng : Rng) : Prop :=
  ∀ k, 0 ≤ rng.stream k ∧ rng.stream k ≤ 1

/-- Embeds the iterator `(0..n).map(|_| rng.gen_range(lo..=hi)).collect()`:
draws `n` values in order, threading the random source. -/
def drawList (lo hi : ℚ) : ℕ → Rng → List ℚ × Rng
  | 0, rng => ([], rng)
  | k + 1, rng =>
    let p := rng.genRange lo hi
    let q := drawList lo hi k p.2
    (p.1 :: q.1, q.2)

/-- Embeds `Neuron::random`: the bias is drawn first from `[-1, 1]`, then one
weight per input from `[-1, 1]` (the Rust parameter is named `output_size`
but counts this neuron's weights). -/
def Neuron.random (rng : Rng) (output_size : ℕ) : Neuron × Rng :=
  let b := rng.genRange (-1) 1
  let ws := drawList (-1) 1 output_size b.2
  (⟨b.1, ws.1⟩, ws.2)

/-- Embeds the iterator `(0..output_neurons).map(|_| Neuron::random(rng, input_neurons))`
inside `Layer::random`. -/
def buildNeurons (input_neurons : ℕ) : ℕ → Rng → List Neuron × Rng
  | 0, rng => ([], rng)
  | k + 1, rng =>
    let p := Neuron.random rng input_neurons
    let q := buildNeurons input_neurons k p.2
    (p.1 :: q.1, q.2)

/-- Embeds `Layer::random`. -/
def Layer.random (rng : Rng) (input_neurons output_neurons : ℕ) : Layer × Rng :=
  let p := buildNeurons input_neurons output_neurons rng
  (⟨p.1⟩, p.2)

/-- Embeds the iterator `layers.windows(2).map(|w| Layer::random(rng, w[0].neurons, w[1].neurons))`
inside `Network::random`; the adjacent pairs are supplied as a list. -/
def buildLayers : List (LayerTopology × LayerTopology) → Rng → List Layer × Rng
  | [], rng => ([], rng)
  | p :: rest, rng =>
    let q := Layer.random rng p.1.neurons p.2.neurons
    let r := buildLayers rest q.2
    (q.1 :: r.1, r.2)

/-- Embeds `Network::random`: `assert!(layers.len() > 1)` is modelled as
returning `none`, and `windows(2)` over the topology is `zip` with its tail. -/
def Network.random (rng : Rng) (layers : List LayerTopology) : Option (Network × Rng) :=
  if 1 < layers.length then
    let p := buildLayers (layers.zip layers.tail) rng
    some (⟨p.1⟩, p.2)
  else
    none

/-- Failure modes of `GeneticAlgorithm::evolve`: the `assert!(!population.is_empty())`
panic, and the `todo!()` panic inside the map closure. -/
inductive EvolveError where
  | emptyPopulation : EvolveError
  | todoUnimplemented : EvolveError

/-- Embeds the zero-field `struct GeneticAlgorithm`. -/
structure GeneticAlgorithm

/-- Embeds `GeneticAlgorithm::new`. -/
def GeneticAlgorithm.new : GeneticAlgorithm := ⟨⟩

/-- Embeds the body of the map closure in `evolve`, which is exactly
`todo!()`: it panics unconditionally before producing a value. -/
def todoSlot (I : Type) : Except EvolveError I :=
  Except.error EvolveError.todoUnimplemented

/-- Embeds `(0..population.len()).map(|_| todo!()).collect()`: each slot is
produced by the (always-panicking) closure, the first panic aborting the
collection. -/
def fillSlots (I : Type) : List ℕ → Except EvolveError (List I)
  | [] => Except.ok []
  | _ :: rest =>
    match todoSlot I with
    | Except.error e => Except.error e
    | Except.ok y =>
      match fillSlots I rest with
      | Except.error e => Except.error e
      | Except.ok ys => Except.ok (y :: ys)

/-- Embeds `GeneticAlgorithm::evolve`: asserts the population non-empty, then
builds one output slot per input individual. -/
def GeneticAlgorithm.evolve {I : Type} (_ga : GeneticAlgorithm) (population : List I) :
    Except EvolveError (List I) :=
  if population.isEmpty then Except.error EvolveError.emptyPopulation
  else fillSlots I (List.range population.length)

/-- Checks, layer by layer, that an input vector of length `k` matches every
neuron's weight count, the next layer receiving one value per neuron of the
current one. -/
def layersMatch : List Layer → ℕ → Bool
  | [], _ => true
  | l :: rest, k =>
    l.neurons.all (fun n => n.weights.length = k) && layersMatch rest l.neurons.length

/-- A layer honoring one adjacent topology pair: one neuron per output unit,
one weight per input unit. -/
def Layer.matchesShape (l : Layer) (input_count out_count : ℕ) : Bool :=
  l.neurons.length = out_count && l.neurons.all (fun n => n.weights.length = input_count)

/-- A network honoring a topology: one layer per adjacent pair, each of the
matching shape. -/
def Network.matchesTopology (net : Network) (topology : List LayerTopology) : Bool :=
  net.layers.length + 1 = topology.length &&
  (net.layers.zip (topology.zip topology.tail)).all
    (fun p => p.1.matchesShape p.2.1.neurons p.2.2.neurons)

/-- Modelled from the spec: the spec's per-neuron formula
`relu(bias + Σ(input_i * weight_i))` with `relu(x) = max(x, 0)`, written as an
index-based sum. -/
def specNeuronOutput (n : Neuron) (inputs : List ℚ) : ℚ :=
  max (n.bias + ∑ i ∈ Finset.range n.weights.length, inputs.getD i 0 * n.weights.getD i 0) 0

/-- Modelled from the spec: a layer's output is the ordered vector of its
neurons' outputs. -/
def specLayerOutput (l : Layer) (inputs : List ℚ) : List ℚ :=
  l.neurons.map (fun n => specNeuronOutput n inputs)

/-- Modelled from the spec: the input vector is transformed sequentially
through the layers, each layer's output becoming the next layer's input. -/
def specNetworkOutput (net : Network) (inputs : List ℚ) : List ℚ :=
  net.layers.foldl (fun acc l => specLayerOutput l acc) inputs

/-- Modelled from the spec: `toChromosome` flattens, per neuron, the bias
followed by the weights (the chromosome code is described by the spec but
absent from src/). -/
def Neuron.toGenes (n : Neuron) : List ℚ :=
  n.bias :: n.weights

/-- Modelled from the spec: genes of a layer, in neuron order. -/
def Layer.toGenes (l : Layer) : List ℚ :=
  (l.neurons.map Neuron.toGenes).flatten

/-- Modelled from the spec: `toChromosome` flattens, in layer order then
neuron order, each neuron's bias followed by its weights. -/
def Network.toChromosome (net : Network) : List ℚ :=
  (net.layers.map Layer.toGenes).flatten

/-- Modelled from the spec: the topology's required gene count, the sum over
layer pairs of `output_count * (input_count + 1)`. -/
def requiredGenes (topology : List LayerTopology) : ℕ :=
  ((topology.zip topology.tail).map (fun p => p.2.neurons * (p.1.neurons + 1))).sum

/-- Modelled from the spec: decoding one neuron consumes its bias and then
`input_count` weights. -/
def parseNeuron (input_count : ℕ) : List ℚ → Option (Neuron × List ℚ)
  | [] => none
  | b :: rest =>
    if input_count ≤ rest.length then
      some (⟨b, rest.take input_count⟩, rest.drop input_count)
    else
      none

/-- Modelled from the spec: decoding one layer consumes `out_count` neurons in
order. -/
def parseNeurons (input_count : ℕ) : ℕ → List ℚ → Option (List Neuron × List ℚ)
  | 0, genes => some ([], genes)
  | k + 1, genes =>
    (parseNeuron input_count genes).bind fun p =>
      (parseNeurons input_count k p.2).map fun q => (p.1 :: q.1, q.2)

/-- Modelled from the spec: decoding consumes one layer per adjacent topology
pair, in order. -/
def parseLayers : List (LayerTopology × LayerTopology) → List ℚ → Option (List Layer × List ℚ)
  | [], genes => some ([], genes)
  | p :: ps, genes =>
    (parseNeurons p.1.neurons p.2.neurons genes).bind fun q =>
      (parseLayers ps q.2).map fun r => (⟨q.1⟩ :: r.1, r.2)

/-- Modelled from the spec: `fromChromosome` fails when the chromosome's
length differs from the topology's required gene count, and otherwise
consumes the genes in the fixed order of `toChromosome`. -/
def Network.fromChromosome (chromosome : List ℚ) (topology : List LayerTopology) :
    Option Network :=
  if chromosome.length = requiredGenes topology then
    (parseLayers (topology.zip topology.tail) chromosome).map fun p => ⟨p.1⟩
  else
    none

/-- Propagating one neuron yields a non-negative value: the result is a `max`
with floor `0`. -/
theorem Neuron.propagate_nonneg {n : Neuron} {inputs : List ℚ} {y : ℚ}
    (h : n.propagate inputs = some y) : 0 ≤ y := by
  unfold Neuron.propagate at h
  split at h
  · cases h
    exact le_max_right _ _
  · exact absurd h (by simp)

/-- Propagating one neuron succeeds exactly when the input length equals the
weight count. -/
theorem Neuron.propagate_none_iff (n : Neuron) (inputs : List ℚ) :
    n.propagate inputs = none ↔ inputs.length ≠ n.weights.length := by
  unfold Neuron.propagate
  split
  · simp_all
  · simp_all

theorem propagateNeurons_nonneg :
    ∀ (ns : List Neuron) (inputs out : List ℚ),
      propagateNeurons inputs ns = some out → ∀ x ∈ out, 0 ≤ x := by
  intro ns
  induction ns with
  | nil =>
    intro inputs out h x hx
    unfold propagateNeurons at h
    cases h
    simp at hx
  | cons n rest ih =>
    intro inputs out h x hx
    unfold propagateNeurons at h
    rw [Option.bind_eq_some] at h
    obtain ⟨y, hy, h2⟩ := h
    rw [Option.map_eq_some'] at h2
    obtain ⟨ys, hys, h3⟩ := h2
    subst h3
    rcases List.mem_cons.mp hx with hx | hx
    · subst hx
      exact Neuron.propagate_nonneg hy
    · exact ih inputs ys hys x hx

theorem propagateNeurons_length :
    ∀ (ns : List Neuron) (inputs out : List ℚ),
      propagateNeurons inputs ns = some out → out.length = ns.length := by
  intro ns
  induction ns with
  | nil =>
    intro inputs out h
    unfold propagateNeurons at h
    cases h
    rfl
  | cons n rest ih =>
    intro inputs out h
    unfold propagateNeurons at h
    rw [Option.bind_eq_some] at h
    obtain ⟨y, _, h2⟩ := h
    rw [Option.map_eq_some'] at h2
    obtain ⟨ys, hys, h3⟩ := h2
    subst h3
    simp [ih inputs ys hys]

theorem Layer.propagate_all_nonneg {l : Layer} {inputs out : List ℚ}
    (h : l.propagate inputs = some out) : ∀ x ∈ out, 0 ≤ x :=
  propagateNeurons_nonneg l.neurons inputs out h

theorem Layer.propagate_length {l : Layer} {inputs out : List ℚ}
    (h : l.propagate inputs = some out) : out.length = l.neurons.length :=
  propagateNeurons_length l.neurons inputs out h

theorem propagateLayers_nonneg :
    ∀ (ls : List Layer) (l : Layer) (inputs out : List ℚ),
      propagateLayers (l :: ls) inputs = some out → ∀ x ∈ out, 0 ≤ x := by
  intro ls
  induction ls with
  | nil =>
    intro l inputs out h
    unfold propagateLayers at h
    rw [Option.bind_eq_some] at h
    obtain ⟨mid, hmid, h2⟩ := h
    unfold propagateLayers at h2
    cases h2
    exact Layer.propagate_all_nonneg hmid
  | cons l2 ls2 ih =>
    intro l inputs out h
    unfold propagateLayers at h
    rw [Option.bind_eq_some] at h
    obtain ⟨mid, _, h2⟩ := h
    exact ih l2 mid out h2

theorem propagateLayers_last_length :
    ∀ (ls : List Layer) (l : Layer) (inputs out : List ℚ) (z : Layer),
      propagateLayers (l :: ls) inputs = some out →
      (l :: ls).getLast? = some z → out.length = z.neurons.length := by
  intro ls
  induction ls with
  | nil =>
    intro l inputs out z h hz
    unfold propagateLayers at h
    rw [Option.bind_eq_some] at h
    obtain ⟨mid, hmid, h2⟩ := h
    unfold propagateLayers at h2
    cases h2
    cases hz
    exact Layer.propagate_length hmid
  | cons l2 ls2 ih =>
    intro l inputs out z h hz
    unfold propagateLayers at h
    rw [Option.bind_eq_some] at h
    obtain ⟨mid, _, h2⟩ := h
    rw [List.getLast?_cons_cons] at hz
    exact ih l2 mid out z h2 hz

/-- C8: `evolve` on the empty population fails the `assert!` and returns no
population. -/
theorem evolve_empty_population_fails {I : Type} (ga : GeneticAlgorithm) :
    GeneticAlgorithm.evolve ga ([] : List I) = Except.error EvolveError.emptyPopulation := rfl

/-- C10: `evolve` never returns normally: the empty population fails the
non-emptiness assertion, and every non-empty population reaches the
`todo!()` panic while producing the first output slot. -/
theorem evolve_never_returns {I : Type} (ga : GeneticAlgorithm) (population : List I) :
    GeneticAlgorithm.evolve ga population =
      Except.error
        (if population.isEmpty then EvolveError.emptyPopulation
         else EvolveError.todoUnimplemented) := by
  cases population with
  | nil => rfl
  | cons x xs =>
    simp only [GeneticAlgorithm.evolve, List.isEmpty_cons, Bool.false_eq_true, if_false,
      List.length_cons]
    rw [List.range_succ_eq_map]
    rfl

/-- C2 counter-evidence: on the singleton population `[0]`, `evolve` reaches
the `todo!()` panic instead of returning a same-size population. -/
theorem evolve_singleton_hits_todo :
    GeneticAlgorithm.evolve GeneticAlgorithm.new [(0 : ℚ)] =
      Except.error EvolveError.todoUnimplemented := rfl

/-- C7: `Network::random` fails exactly on topologies with fewer than 2
entries, and succeeds on all others. -/
theorem network_random_total (rng : Rng) (topology : List LayerTopology) :
    (Network.random rng topology = none ↔ topology.length < 2) ∧
    ((Network.random rng topology).isSome = true ↔ 2 ≤ topology.length) := by
  unfold Network.random
  by_cases h : 1 < topology.length
  · simp only [h, if_true]
    constructor
    · simp
      omega
    · simp
      omega
  · simp only [h, if_false]
    constructor
    · simp
      omega
    · simp
      omega

theorem zip_shape_last :
    ∀ (ls : List Layer) (topology : List LayerTopology) (z : Layer) (t : LayerTopology),
      ls.length + 1 = topology.length →
      ((ls.zip (topology.zip topology.tail)).all
        (fun p => p.1.matchesShape p.2.1.neurons p.2.2.neurons)) = true →
      ls.getLast? = some z → topology.getLast? = some t →
      z.neurons.length = t.neurons := by
  intro ls
  induction ls with
  | nil =>
    intro topology z t _ _ hz _
    simp at hz
  | cons l ls' ih =>
    intro topology z t hlen hall hz ht
    match topology with
    | [] => simp at hlen
    | [t0] => simp at hlen
    | t0 :: t1 :: ts =>
      simp only [List.tail_cons, List.zip_cons_cons, List.all_cons, Bool.and_eq_true] at hall
      cases ls' with
      | nil =>
        have hts : ts = [] := by
          cases ts with
          | nil => rfl
          | cons a b =>
            exfalso
            simp only [List.length_cons, List.length_nil] at hlen
            omega
        subst hts
        simp at hz ht
        subst hz
        subst ht
        have := hall.1
        unfold Layer.matchesShape at this
        rw [Bool.and_eq_true, decide_eq_true_eq] at this
        exact this.1
      | cons l2 ls'' =>
        rw [List.getLast?_cons_cons] at hz ht
        refine ih (t1 :: ts) z t ?_ ?_ hz ht
        · simp at hlen ⊢
          omega
        · exact hall.2

/-- C4 as amended: every element of a successful propagation through a network
with at least one layer is non-negative. -/
theorem propagate_output_nonneg (net : Network) (inputs out : List ℚ)
    (hne : net.layers ≠ []) (h : net.propagate inputs = some out) :
    ∀ x ∈ out, 0 ≤ x := by
  obtain ⟨l, ls, hl⟩ := List.exists_cons_of_ne_nil hne
  unfold Network.propagate at h
  rw [hl] at h
  exact propagateLayers_nonneg ls l inputs out h

/-- C4 witness: the amended theorem applied to a concrete one-layer network. -/
theorem propagate_output_nonneg_witness :
    (Network.mk [⟨[⟨0, [0]⟩]⟩]).layers ≠ [] ∧
    Network.propagate ⟨[⟨[⟨0, [0]⟩]⟩]⟩ [0] = some [0] ∧
    ∀ x ∈ [(0 : ℚ)], 0 ≤ x := by
  have h1 : (Network.mk [⟨[⟨0, [0]⟩]⟩]).layers ≠ [] := by simp
  have h2 : Network.propagate ⟨[⟨[⟨0, [0]⟩]⟩]⟩ [0] = some [0] := by
    norm_num [Network.propagate, propagateLayers, Layer.propagate, propagateNeurons,
      Neuron.propagate]
  exact ⟨h1, h2, propagate_output_nonneg _ _ _ h1 h2⟩

/-- C4 counterexample: a network with no layers propagates any vector
unchanged, so a negative input survives to the output; the claim as stated
over all networks is false. -/
theorem propagate_output_nonneg_cex :
    Network.propagate ⟨[]⟩ [-1] = some [-1] ∧ ((-1 : ℚ) < 0) :=
  ⟨rfl, by norm_num⟩

/-- C5: a successful propagation through a network with at least one layer
has one output per neuron of the last layer, which under any honored topology
is that topology's last entry. -/
theorem propagate_output_length (net : Network) (inputs out : List ℚ) (lastL : Layer)
    (h1 : net.propagate inputs = some out)
    (h2 : net.layers.getLast? = some lastL) :
    out.length = lastL.neurons.length ∧
    ∀ (topology : List LayerTopology) (t : LayerTopology),
      net.matchesTopology topology = true → topology.getLast? = some t →
      out.length = t.neurons := by
  obtain ⟨l, ls, hl⟩ : ∃ l ls, net.layers = l :: ls := by
    cases hnl : net.layers with
    | nil => rw [hnl] at h2; simp at h2
    | cons a b => exact ⟨a, b, rfl⟩
  unfold Network.propagate at h1
  have h2' := h2
  rw [hl] at h1 h2'
  have hmain := propagateLayers_last_length ls l inputs out lastL h1 h2'
  refine ⟨hmain, ?_⟩
  intro topology t hm ht
  unfold Network.matchesTopology at hm
  rw [Bool.and_eq_true, decide_eq_true_eq] at hm
  rw [hmain]
  exact zip_shape_last net.layers topology lastL t hm.1 hm.2 h2 ht

/-- C5 witness: the theorem applied to a concrete one-layer network with the
topology it honors. -/
theorem propagate_output_length_witness :
    Network.propagate ⟨[⟨[⟨0, [0]⟩]⟩]⟩ [0] = some [0] ∧
    (Network.mk [⟨[⟨0, [0]⟩]⟩]).layers.getLast? = some ⟨[⟨0, [0]⟩]⟩ ∧
    ([(0 : ℚ)].length = (Layer.mk [⟨0, [0]⟩]).neurons.length ∧
      ∀ (topology : List LayerTopology) (t : LayerTopology),
        Network.matchesTopology ⟨[⟨[⟨0, [0]⟩]⟩]⟩ topology = true →
        topology.getLast? = some t → [(0 : ℚ)].length = t.neurons) := by
  have h1 : Network.propagate ⟨[⟨[⟨0, [0]⟩]⟩]⟩ [0] = some [0] := by
    norm_num [Network.propagate, propagateLayers, Layer.propagate, propagateNeurons,
      Neuron.propagate]
  have h2 : (Network.mk [⟨[⟨0, [0]⟩]⟩]).layers.getLast? = some ⟨[⟨0, [0]⟩]⟩ := rfl
  exact ⟨h1, h2, propagate_output_length _ _ _ _ h1 h2⟩

theorem dot_eq :
    ∀ (ws xs : List ℚ), xs.length = ws.length →
      ((xs.zip ws).map (fun p => p.1 * p.2)).sum =
        ∑ i ∈ Finset.range ws.length, xs.getD i 0 * ws.getD i 0 := by
  intro ws
  induction ws with
  | nil =>
    intro xs h
    simp
  | cons w ws' ih =>
    intro xs h
    cases xs with
    | nil => simp at h
    | cons x xs' =>
      simp only [List.zip_cons_cons, List.map_cons, List.sum_cons, List.length_cons]
      rw [Finset.sum_range_succ']
      simp only [List.getD_cons_succ, List.getD_cons_zero]
      rw [ih xs' (by simpa using h)]
      ring

theorem Neuron.propagate_eq_spec {n : Neuron} {inputs : List ℚ}
    (h : inputs.length = n.weights.length) :
    n.propagate inputs = some (specNeuronOutput n inputs) := by
  unfold Neuron.propagate specNeuronOutput
  rw [if_pos h, dot_eq n.weights inputs h]

theorem propagateNeurons_spec :
    ∀ (ns : List Neuron) (inputs : List ℚ),
      (∀ n ∈ ns, inputs.length = n.weights.length) →
      propagateNeurons inputs ns = some (ns.map (fun n => specNeuronOutput n inputs)) := by
  intro ns
  induction ns with
  | nil =>
    intro inputs _
    rfl
  | cons n rest ih =>
    intro inputs h
    unfold propagateNeurons
    rw [Neuron.propagate_eq_spec (h n (by simp)),
      ih inputs (fun m hm => h m (List.mem_cons_of_mem _ hm))]
    rfl

theorem propagateLayers_spec :
    ∀ (ls : List Layer) (inputs : List ℚ),
      layersMatch ls inputs.length = true →
      propagateLayers ls inputs =
        some (ls.foldl (fun acc l => specLayerOutput l acc) inputs) := by
  intro ls
  induction ls with
  | nil =>
    intro inputs _
    rfl
  | cons l rest ih =>
    intro inputs h
    unfold layersMatch at h
    rw [Bool.and_eq_true, List.all_eq_true] at h
    obtain ⟨hall, hrest⟩ := h
    have hlay : l.propagate inputs = some (specLayerOutput l inputs) := by
      unfold Layer.propagate specLayerOutput
      refine propagateNeurons_spec l.neurons inputs (fun n hn => ?_)
      have := hall n hn
      simp at this
      omega
    have hlen : (specLayerOutput l inputs).length = l.neurons.length := by
      unfold specLayerOutput
      simp
    unfold propagateLayers
    rw [hlay, List.foldl_cons]
    exact ih (specLayerOutput l inputs) (by rw [hlen]; exact hrest)

/-- C1: when the input length matches the weight counts layer by layer,
`Network::propagate` returns exactly the spec's formula: the sequential fold
of per-layer outputs, each neuron contributing
`max(bias + Σ input_i * weight_i, 0)`. -/
theorem propagate_matches_spec (net : Network) (inputs : List ℚ)
    (h : layersMatch net.layers inputs.length = true) :
    net.propagate inputs = some (specNetworkOutput net inputs) :=
  propagateLayers_spec net.layers inputs h

/-- C1 witness: the theorem applied to a concrete one-layer network. -/
theorem propagate_matches_spec_witness :
    layersMatch (Network.mk [⟨[⟨1, [1, 2]⟩]⟩]).layers [(1 : ℚ), 1].length = true ∧
    Network.propagate ⟨[⟨[⟨1, [1, 2]⟩]⟩]⟩ [1, 1] =
      some (specNetworkOutput ⟨[⟨[⟨1, [1, 2]⟩]⟩]⟩ [1, 1]) := by
  have h : layersMatch (Network.mk [⟨[⟨1, [1, 2]⟩]⟩]).layers [(1 : ℚ), 1].length = true := by
    decide
  exact ⟨h, propagate_matches_spec _ _ h⟩

theorem propagateNeurons_none_head {n : Neuron} {rest : List Neuron} {inputs : List ℚ}
    (h : n.propagate inputs = none) :
    propagateNeurons inputs (n :: rest) = none := by
  unfold propagateNeurons
  rw [h]
  rfl

theorem matchesTopology_layersMatch :
    ∀ (ls : List Layer) (t0 : LayerTopology) (ts : List LayerTopology),
      ls.length = ts.length →
      ((ls.zip ((t0 :: ts).zip ts)).all
        (fun p => p.1.matchesShape p.2.1.neurons p.2.2.neurons)) = true →
      layersMatch ls t0.neurons = true := by
  intro ls
  induction ls with
  | nil =>
    intro t0 ts _ _
    rfl
  | cons l ls' ih =>
    intro t0 ts hlen hall
    cases ts with
    | nil => simp at hlen
    | cons t1 ts' =>
      simp only [List.zip_cons_cons, List.all_cons, Bool.and_eq_true] at hall
      obtain ⟨hshape, hrest⟩ := hall
      unfold Layer.matchesShape at hshape
      rw [Bool.and_eq_true, decide_eq_true_eq] at hshape
      unfold layersMatch
      rw [Bool.and_eq_true]
      refine ⟨hshape.2, ?_⟩
      rw [hshape.1]
      exact ih t1 ts' (by simpa using hlen) hrest

/-- C9 as amended: per neuron, propagation fails exactly when the incoming
vector length differs from the weight count; for a network honoring a
topology whose first layer has at least one neuron, a mismatched input makes
`propagate` fail; and for any matching input, the per-neuron failure branch
is unreachable, so `propagate` succeeds. -/
theorem propagate_failure_modes (net : Network) (t0 t1 : LayerTopology)
    (ts : List LayerTopology) (inputs : List ℚ)
    (hm : net.matchesTopology (t0 :: t1 :: ts) = true) :
    (∀ (n : Neuron) (xs : List ℚ), n.propagate xs = none ↔ xs.length ≠ n.weights.length) ∧
    (0 < t1.neurons → inputs.length ≠ t0.neurons → net.propagate inputs = none) ∧
    (inputs.length = t0.neurons → (net.propagate inputs).isSome = true) := by
  unfold Network.matchesTopology at hm
  rw [Bool.and_eq_true, decide_eq_true_eq] at hm
  obtain ⟨hlen, hall⟩ := hm
  refine ⟨Neuron.propagate_none_iff, ?_, ?_⟩
  · intro hpos hmis
    obtain ⟨l, ls, hl⟩ : ∃ l ls, net.layers = l :: ls := by
      cases hnl : net.layers with
      | nil => rw [hnl] at hlen; simp at hlen
      | cons a b => exact ⟨a, b, rfl⟩
    rw [hl] at hall
    simp only [List.tail_cons, List.zip_cons_cons, List.all_cons, Bool.and_eq_true] at hall
    have hshape := hall.1
    unfold Layer.matchesShape at hshape
    rw [Bool.and_eq_true, decide_eq_true_eq, List.all_eq_true] at hshape
    obtain ⟨hcount, hws⟩ := hshape
    obtain ⟨n1, ns', hn⟩ : ∃ n1 ns', l.neurons = n1 :: ns' := by
      cases hne : l.neurons with
      | nil => rw [hne] at hcount; simp at hcount; omega
      | cons a b => exact ⟨a, b, rfl⟩
    have hw1 : n1.weights.length = t0.neurons := by
      have := hws n1 (by rw [hn]; simp)
      simpa using this
    have hfail : n1.propagate inputs = none := by
      rw [Neuron.propagate_none_iff, hw1]
      exact hmis
    have hlfail : l.propagate inputs = none := by
      unfold Layer.propagate
      rw [hn]
      exact propagateNeurons_none_head hfail
    unfold Network.propagate
    rw [hl]
    unfold propagateLayers
    rw [hlfail]
    rfl
  · intro hmatch
    have hlm : layersMatch net.layers t0.neurons = true := by
      refine matchesTopology_layersMatch net.layers t0 (t1 :: ts) ?_ ?_
      · simp only [List.length_cons] at hlen ⊢
        omega
      · exact hall
    rw [← hmatch] at hlm
    unfold Network.propagate
    rw [propagateLayers_spec net.layers inputs hlm]
    rfl

/-- C9 witness: the amended theorem applied to a concrete one-layer network
honoring topology `[1, 1]`, with the mismatched input `[5]` replaced by a
matching one in the last conjunct. -/
theorem propagate_failure_modes_witness :
    Network.matchesTopology ⟨[⟨[⟨0, [0]⟩]⟩]⟩ [⟨1⟩, ⟨1⟩] = true ∧
    ((∀ (n : Neuron) (xs : List ℚ), n.propagate xs = none ↔ xs.length ≠ n.weights.length) ∧
     (0 < (LayerTopology.mk 1).neurons → [(5 : ℚ), 6].length ≠ (LayerTopology.mk 1).neurons →
       Network.propagate ⟨[⟨[⟨0, [0]⟩]⟩]⟩ [5, 6] = none) ∧
     ([(5 : ℚ), 6].length = (LayerTopology.mk 1).neurons →
       (Network.propagate ⟨[⟨[⟨0, [0]⟩]⟩]⟩ [5, 6]).isSome = true)) := by
  have hm : Network.matchesTopology ⟨[⟨[⟨0, [0]⟩]⟩]⟩ [⟨1⟩, ⟨1⟩] = true := by decide
  exact ⟨hm, propagate_failure_modes _ _ _ _ _ hm⟩

/-- C9 counterexample: a network honoring topology `[1, 0]` has an empty
first layer, so the mismatched empty input (length 0, expected 1) is never
checked and `propagate` succeeds; the claim's first part is false as
stated. -/
theorem propagate_failure_modes_cex :
    Network.matchesTopology ⟨[⟨[]⟩]⟩ [⟨1⟩, ⟨0⟩] = true ∧
    ([] : List ℚ).length ≠ 1 ∧
    Network.propagate ⟨[⟨[]⟩]⟩ [] = some [] := by
  refine ⟨by decide, by decide, rfl⟩

theorem Rng.genRange_unit {rng : Rng} (h : rng.unitStream) (lo hi : ℚ) :
    (rng.genRange lo hi).2.unitStream := h

theorem Rng.genRange_mem {rng : Rng} (h : rng.unitStream) :
    -1 ≤ (rng.genRange (-1) 1).1 ∧ (rng.genRange (-1) 1).1 ≤ 1 := by
  obtain ⟨h0, h1⟩ := h rng.pos
  unfold Rng.genRange
  constructor
  · simp only []
    linarith
  · simp only []
    linarith

theorem drawList_succ (lo hi : ℚ) (k : ℕ) (rng : Rng) :
    drawList lo hi (k + 1) rng =
      ((rng.genRange lo hi).1 :: (drawList lo hi k (rng.genRange lo hi).2).1,
       (drawList lo hi k (rng.genRange lo hi).2).2) := rfl

theorem drawList_sound :
    ∀ (k : ℕ) (rng : Rng), rng.unitStream →
      (drawList (-1) 1 k rng).1.length = k ∧
      (∀ w ∈ (drawList (-1) 1 k rng).1, -1 ≤ w ∧ w ≤ 1) ∧
      (drawList (-1) 1 k rng).2.stream = rng.stream := by
  intro k
  induction k with
  | zero =>
    intro rng _
    exact ⟨rfl, by simp [drawList], rfl⟩
  | succ k' ih =>
    intro rng h
    obtain ⟨ihl, ihm, ihs⟩ := ih (rng.genRange (-1) 1).2 (Rng.genRange_unit h _ _)
    rw [drawList_succ]
    refine ⟨by simp [ihl], ?_, ihs⟩
    intro w hw
    rcases List.mem_cons.mp hw with hw | hw
    · subst hw
      exact Rng.genRange_mem h
    · exact ihm w hw

theorem unitStream_of_stream_eq {r1 r2 : Rng} (h : r1.unitStream)
    (he : r2.stream = r1.stream) : r2.unitStream := by
  intro k
  rw [he]
  exact h k

theorem Neuron.random_sound {rng : Rng} (h : rng.unitStream) (sz : ℕ) :
    (Neuron.random rng sz).1.weights.length = sz ∧
    (-1 ≤ (Neuron.random rng sz).1.bias ∧ (Neuron.random rng sz).1.bias ≤ 1) ∧
    (∀ w ∈ (Neuron.random rng sz).1.weights, -1 ≤ w ∧ w ≤ 1) ∧
    (Neuron.random rng sz).2.stream = rng.stream := by
  obtain ⟨dl, dm, ds⟩ := drawList_sound sz (rng.genRange (-1) 1).2 (Rng.genRange_unit h _ _)
  exact ⟨dl, Rng.genRange_mem h, dm, ds⟩

theorem buildNeurons_succ (inC k : ℕ) (rng : Rng) :
    buildNeurons inC (k + 1) rng =
      ((Neuron.random rng inC).1 :: (buildNeurons inC k (Neuron.random rng inC).2).1,
       (buildNeurons inC k (Neuron.random rng inC).2).2) := rfl

theorem buildNeurons_sound :
    ∀ (k : ℕ) (inC : ℕ) (rng : Rng), rng.unitStream →
      (buildNeurons inC k rng).1.length = k ∧
      (∀ n ∈ (buildNeurons inC k rng).1,
        n.weights.length = inC ∧ -1 ≤ n.bias ∧ n.bias ≤ 1 ∧
        ∀ w ∈ n.weights, -1 ≤ w ∧ w ≤ 1) ∧
      (buildNeurons inC k rng).2.stream = rng.stream := by
  intro k
  induction k with
  | zero =>
    intro inC rng _
    exact ⟨rfl, by simp [buildNeurons], rfl⟩
  | succ k' ih =>
    intro inC rng h
    obtain ⟨nl, nb, nm, ns⟩ := Neuron.random_sound h inC
    have h2 : (Neuron.random rng inC).2.unitStream := unitStream_of_stream_eq h ns
    obtain ⟨ihl, ihm, ihs⟩ := ih inC (Neuron.random rng inC).2 h2
    rw [buildNeurons_succ]
    refine ⟨by simp [ihl], ?_, by rw [ihs, ns]⟩
    intro n hn
    rcases List.mem_cons.mp hn with hn | hn
    · subst hn
      exact ⟨nl, nb.1, nb.2, nm⟩
    · exact ihm n hn

theorem buildLayers_cons (p : LayerTopology × LayerTopology)
    (ps : List (LayerTopology × LayerTopology)) (rng : Rng) :
    buildLayers (p :: ps) rng =
      ((Layer.random rng p.1.neurons p.2.neurons).1 ::
        (buildLayers ps (Layer.random rng p.1.neurons p.2.neurons).2).1,
       (buildLayers ps (Layer.random rng p.1.neurons p.2.neurons).2).2) := rfl

theorem buildLayers_sound :
    ∀ (ps : List (LayerTopology × LayerTopology)) (rng : Rng), rng.unitStream →
      List.Forall₂ (fun (l : Layer) (p : LayerTopology × LayerTopology) =>
        l.neurons.length = p.2.neurons ∧
        ∀ n ∈ l.neurons, n.weights.length = p.1.neurons ∧
          -1 ≤ n.bias ∧ n.bias ≤ 1 ∧ ∀ w ∈ n.weights, -1 ≤ w ∧ w ≤ 1)
        (buildLayers ps rng).1 ps ∧
      (buildLayers ps rng).2.stream = rng.stream := by
  intro ps
  induction ps with
  | nil =>
    intro rng _
    exact ⟨List.Forall₂.nil, rfl⟩
  | cons p ps' ih =>
    intro rng h
    obtain ⟨bl, bm, bs⟩ := buildNeurons_sound p.2.neurons p.1.neurons rng h
    have h2 : (Layer.random rng p.1.neurons p.2.neurons).2.unitStream :=
      unitStream_of_stream_eq h bs
    obtain ⟨ihf, ihs⟩ := ih (Layer.random rng p.1.neurons p.2.neurons).2 h2
    rw [buildLayers_cons]
    refine ⟨List.Forall₂.cons ⟨bl, bm⟩ ihf, ?_⟩
    rw [ihs]
    exact bs

/-- C3: on a topology with at least 2 entries and a unit-interval entropy
stream, `Network::random` succeeds, builds one layer per adjacent topology
pair, the layer for pair `(n_in, n_out)` having exactly `n_out` neurons of
`n_in` weights each, and every drawn bias and weight lies in `[-1, 1]`. -/
theorem network_random_spec (rng : Rng) (topology : List LayerTopology)
    (hlen : 2 ≤ topology.length) (hu : rng.unitStream) :
    ∃ net rng2, Network.random rng topology = some (net, rng2) ∧
      net.layers.length = topology.length - 1 ∧
      List.Forall₂ (fun (l : Layer) (p : LayerTopology × LayerTopology) =>
        l.neurons.length = p.2.neurons ∧
        ∀ n ∈ l.neurons, n.weights.length = p.1.neurons ∧
          -1 ≤ n.bias ∧ n.bias ≤ 1 ∧ ∀ w ∈ n.weights, -1 ≤ w ∧ w ≤ 1)
        net.layers (topology.zip topology.tail) := by
  obtain ⟨hf, _⟩ := buildLayers_sound (topology.zip topology.tail) rng hu
  refine ⟨⟨(buildLayers (topology.zip topology.tail) rng).1⟩,
    (buildLayers (topology.zip topology.tail) rng).2, ?_, ?_, hf⟩
  · unfold Network.random
    rw [if_pos (by omega)]
  · have hl := List.Forall₂.length_eq hf
    rw [hl, List.length_zip, List.length_tail]
    omega

/-- C3 witness: the theorem applied to the constant stream `1/2` and the
topology `[1, 1]`. -/
theorem network_random_spec_witness :
    2 ≤ ([⟨1⟩, ⟨1⟩] : List LayerTopology).length ∧
    (Rng.mk (fun _ => 1/2) 0).unitStream ∧
    ∃ net rng2, Network.random ⟨fun _ => 1/2, 0⟩ [⟨1⟩, ⟨1⟩] = some (net, rng2) ∧
      net.layers.length = ([⟨1⟩, ⟨1⟩] : List LayerTopology).length - 1 ∧
      List.Forall₂ (fun (l : Layer) (p : LayerTopology × LayerTopology) =>
        l.neurons.length = p.2.neurons ∧
        ∀ n ∈ l.neurons, n.weights.length = p.1.neurons ∧
          -1 ≤ n.bias ∧ n.bias ≤ 1 ∧ ∀ w ∈ n.weights, -1 ≤ w ∧ w ≤ 1)
        net.layers (([⟨1⟩, ⟨1⟩] : List LayerTopology).zip
          ([⟨1⟩, ⟨1⟩] : List LayerTopology).tail) := by
  have h1 : 2 ≤ ([⟨1⟩, ⟨1⟩] : List LayerTopology).length := by decide
  have h2 : (Rng.mk (fun _ => 1/2) 0).unitStream := by
    intro k
    constructor
    · norm_num
    · norm_num
  exact ⟨h1, h2, network_random_spec _ _ h1 h2⟩

theorem parseNeuron_sound (input_count : ℕ) :
    ∀ (genes : List ℚ), input_count + 1 ≤ genes.length →
      ∃ n rest, parseNeuron input_count genes = some (n, rest) ∧
        Neuron.toGenes n ++ rest = genes ∧ n.weights.length = input_count ∧
        rest.length + (input_count + 1) = genes.length := by
  intro genes h
  cases genes with
  | nil => simp at h
  | cons b rest0 =>
    have hle : input_count ≤ rest0.length := by
      simp only [List.length_cons] at h
      omega
    refine ⟨⟨b, rest0.take input_count⟩, rest0.drop input_count, ?_, ?_, ?_, ?_⟩
    · simp only [parseNeuron]
      rw [if_pos hle]
    · unfold Neuron.toGenes
      simp only [List.cons_append, List.take_append_drop]
    · simp only [List.length_take]
      omega
    · simp only [List.length_drop, List.length_cons]
      omega

theorem parseNeurons_sound (input_count : ℕ) :
    ∀ (k : ℕ) (genes : List ℚ), k * (input_count + 1) ≤ genes.length →
      ∃ ns rest, parseNeurons input_count k genes = some (ns, rest) ∧
        (ns.map Neuron.toGenes).flatten ++ rest = genes ∧
        ns.length = k ∧
        rest.length + k * (input_count + 1) = genes.length := by
  intro k
  induction k with
  | zero =>
    intro genes _
    exact ⟨[], genes, rfl, by simp, rfl, by simp⟩
  | succ k' ih =>
    intro genes h
    rw [Nat.succ_mul] at h
    have h1 : input_count + 1 ≤ genes.length := by omega
    obtain ⟨n, rest1, hp, happ, hwlen, hlen1⟩ := parseNeuron_sound input_count genes h1
    have h2 : k' * (input_count + 1) ≤ rest1.length := by omega
    obtain ⟨ns, rest2, hps, happ2, hnslen, hlen2⟩ := ih rest1 h2
    refine ⟨n :: ns, rest2, ?_, ?_, by simp [hnslen], ?_⟩
    · simp [parseNeurons, hp, hps]
    · rw [← happ, ← happ2]
      simp [List.append_assoc]
    · rw [Nat.succ_mul]
      omega

theorem parseLayers_sound :
    ∀ (ps : List (LayerTopology × LayerTopology)) (genes : List ℚ),
      (ps.map (fun p => p.2.neurons * (p.1.neurons + 1))).sum ≤ genes.length →
      ∃ ls rest, parseLayers ps genes = some (ls, rest) ∧
        (ls.map Layer.toGenes).flatten ++ rest = genes ∧
        rest.length + (ps.map (fun p => p.2.neurons * (p.1.neurons + 1))).sum =
          genes.length := by
  intro ps
  induction ps with
  | nil =>
    intro genes _
    exact ⟨[], genes, rfl, by simp, by simp⟩
  | cons p ps' ih =>
    intro genes h
    simp only [List.map_cons, List.sum_cons] at h
    have h1 : p.2.neurons * (p.1.neurons + 1) ≤ genes.length := by omega
    obtain ⟨ns, rest1, hp1, happ1, hnslen, hlen1⟩ :=
      parseNeurons_sound p.1.neurons p.2.neurons genes h1
    have h2 : (ps'.map (fun p => p.2.neurons * (p.1.neurons + 1))).sum ≤ rest1.length := by
      omega
    obtain ⟨ls, rest2, hp2, happ2, hlen2⟩ := ih rest1 h2
    refine ⟨⟨ns⟩ :: ls, rest2, ?_, ?_, ?_⟩
    · simp [parseLayers, hp1, hp2]
    · rw [← happ1, ← happ2]
      unfold Layer.toGenes
      simp [List.append_assoc]
    · simp only [List.map_cons, List.sum_cons]
      omega

/-- C6: for a topology of length at least 2 and a chromosome of exactly the
required gene count, decoding then re-encoding is the identity. -/
theorem fromChromosome_toChromosome (topology : List LayerTopology) (chromosome : List ℚ)
    (hlen : 2 ≤ topology.length)
    (hC : chromosome.length = requiredGenes topology) :
    ∃ net, Network.fromChromosome chromosome topology = some net ∧
      net.toChromosome = chromosome := by
  have hreq : ((topology.zip topology.tail).map
      (fun p => p.2.neurons * (p.1.neurons + 1))).sum ≤ chromosome.length := by
    rw [hC]
    unfold requiredGenes
    exact le_rfl
  obtain ⟨ls, rest, hp, happ, hrlen⟩ :=
    parseLayers_sound (topology.zip topology.tail) chromosome hreq
  have hrest : rest = [] := by
    have h0 : rest.length = 0 := by
      rw [hC] at hrlen
      unfold requiredGenes at hrlen
      omega
    exact List.eq_nil_of_length_eq_zero h0
  subst hrest
  refine ⟨⟨ls⟩, ?_, ?_⟩
  · unfold Network.fromChromosome
    rw [if_pos hC, hp]
    rfl
  · unfold Network.toChromosome
    rw [← happ]
    simp

/-- C6 witness: the theorem applied to the topology `[1, 1]` and the
2-gene chromosome `[5, 7]`. -/
theorem fromChromosome_toChromosome_witness :
    2 ≤ ([⟨1⟩, ⟨1⟩] : List LayerTopology).length ∧
    [(5 : ℚ), 7].length = requiredGenes [⟨1⟩, ⟨1⟩] ∧
    ∃ net, Network.fromChromosome [(5 : ℚ), 7] [⟨1⟩, ⟨1⟩] = some net ∧
      net.toChromosome = [(5 : ℚ), 7] := by
  have h1 : 2 ≤ ([⟨1⟩, ⟨1⟩] : List LayerTopology).length := by decide
  have h2 : [(5 : ℚ), 7].length = requiredGenes [⟨1⟩, ⟨1⟩] := rfl
  exact ⟨h1, h2, fromChromosome_toChromosome _ _ h1 h2⟩
